import Mathlib

/-!
Verification of the roadmap navigation example (Roadmap.cc) of the RVO2-raylib
repository.  The development shallowly embeds, over an ordered additive monoid
standing for the nonnegative edge costs, the four components of the program:

* the visibility-graph builder (the first loop of `buildRoadmap`),
* the per-goal Dijkstra phase (the second loop of `buildRoadmap`), with the
  `std::multimap` priority queue with per-vertex handles modelled as a
  key-sorted association list holding at most one entry per vertex,
* the per-agent steering rule of `setPreferredVelocities`, with the plane
  modelled as `ℝ × ℝ` and the float vector helpers of `Vector2.h` as real
  functions,
* the termination test `reachedGoal`.

Machine floats are modelled as real numbers; the visibility oracle
`queryVisibility`, which lives outside this file, is abstracted as a boolean
function of the two endpoints (for the graph builder: of the two vertex
indices; for the steering rule: of the candidate vertex, the agent position
being fixed during one evaluation).
-/


/-! ## The vector helpers of `Vector2.h`, over the reals -/

namespace RVO

/-- Squared Euclidean norm, `RVO::absSq`. -/
def absSq (v : ℝ × ℝ) : ℝ := v.1 * v.1 + v.2 * v.2

/-- Euclidean norm, `RVO::abs`. -/
noncomputable def abs (v : ℝ × ℝ) : ℝ := Real.sqrt (absSq v)

/-- Unit vector in the direction of `v`, `RVO::normalize` (a componentwise
division by the norm). -/
noncomputable def normalize (v : ℝ × ℝ) : ℝ × ℝ := (v.1 / abs v, v.2 / abs v)

end RVO

namespace Roadmap

/-! ## The visibility-graph builder

First loop of `buildRoadmap`: for every ordered pair `(i, j)` of roadmap
vertices, `j` is appended to `neighbors i` whenever the visibility test
succeeds.  The loop has no `i ≠ j` guard. -/

def buildRoadmapNeighbors {n : ℕ} (visB : Fin n → Fin n → Bool) :
    Fin n → List (Fin n) :=
  fun i => (List.finRange n).filter (fun j => visB i j)

/-! ## The Dijkstra phase

State of one single-goal run: the `distToGoal` column for that goal, and the
priority queue `Q`.  The C++ `std::multimap<float, int>` with the `posInQ`
handle table keeps at most one entry per vertex, ordered by key; we model it
as a list of key-vertex pairs kept sorted by key, entries with equal keys
kept in insertion order (`std::multimap::insert` places a new entry after all
entries of equal key, and `Q.begin()` is the oldest minimal entry). -/

structure DState (α : Type) (n : ℕ) where
  dist : Fin n → WithTop α
  Q : List (WithTop α × Fin n)

variable {α : Type} [LinearOrderedAddCommMonoid α] {n : ℕ}

/-- Sorted insertion of one key-vertex entry, after all entries of smaller or
equal key (the `std::multimap::insert` position). -/
def qInsert (k : WithTop α) (v : Fin n) :
    List (WithTop α × Fin n) → List (WithTop α × Fin n)
  | [] => [(k, v)]
  | p :: rest => if p.1 ≤ k then p :: qInsert k v rest else (k, v) :: p :: rest

/-- Relaxation of the edge from the extracted vertex `u` to one neighbour `v`
(the body of the inner `for` loop of the Dijkstra phase).  When the tentative
distance improves, the distance table is updated and the queue entry of `v` is
replaced (erased if present, then reinserted with the new key); erasing the
`posInQ` iterator removes exactly the unique entry of `v`, and removes nothing
when `v` is absent. -/
def relaxEdge (w : Fin n → Fin n → α) (u : Fin n) (s : DState α n) (v : Fin n) :
    DState α n :=
  let d := s.dist u + (w u v : WithTop α)
  if d < s.dist v then
    { dist := Function.update s.dist v d,
      Q := qInsert d v (s.Q.filter (fun p => p.2 ≠ v)) }
  else s

/-- One iteration of the `while (!Q.empty())` loop: extract the minimal entry
`Q.begin()`, then relax every outgoing edge of its vertex. -/
def dijkstraStep (w : Fin n → Fin n → α) (nbr : Fin n → List (Fin n))
    (s : DState α n) : DState α n :=
  match s.Q with
  | [] => s
  | (_, u) :: rest => (nbr u).foldl (relaxEdge w u) { dist := s.dist, Q := rest }

/-- The Dijkstra loop, fuelled; `distToGoal_fuel_stable` below shows that
`n` units of fuel already drain the queue, so the fuelled loop agrees with the
unbounded C++ `while` loop. -/
def dijkstraLoop (w : Fin n → Fin n → α) (nbr : Fin n → List (Fin n)) :
    ℕ → DState α n → DState α n
  | 0, s => s
  | fuel + 1, s =>
    match s.Q with
    | [] => s
    | _ :: _ => dijkstraLoop w nbr fuel (dijkstraStep w nbr s)

/-- Initial state of the run for goal `g`: every distance starts at the
infinity it was resized to, then `distToGoal[g] := 0` and `(0, g)` is inserted
into the empty queue. -/
def dijkstraInit (g : Fin n) : DState α n :=
  { dist := Function.update (fun _ => (⊤ : WithTop α)) g 0,
    Q := [((0 : WithTop α), g)] }

/-- The `distToGoal` column for goal `g` after its Dijkstra run. -/
def distToGoal (w : Fin n → Fin n → α) (nbr : Fin n → List (Fin n))
    (g : Fin n) : Fin n → WithTop α :=
  (dijkstraLoop w nbr n (dijkstraInit g)).dist

/-! ## Walks and shortest distances

`WalkCost nbr w g v c` states that some walk of the directed graph `nbr`
leads from `g` to `v` with total edge cost `c`. -/

inductive WalkCost (nbr : Fin n → List (Fin n)) (w : Fin n → Fin n → α)
    (g : Fin n) : Fin n → α → Prop
  | refl : WalkCost nbr w g g 0
  | tail {u v : Fin n} {c : α} (h : WalkCost nbr w g u c) (hv : v ∈ nbr u) :
      WalkCost nbr w g v (c + w u v)

/-! ### Run invariants

`FoldInv` holds while the neighbours of the extracted vertex `u` are being
relaxed; `P` is the set of vertices extracted so far, `u` included.
`LoopInv` holds between loop iterations. -/

structure FoldInv (w : Fin n → Fin n → α) (nbr : Fin n → List (Fin n))
    (g u : Fin n) (P : Finset (Fin n)) (s : DState α n) : Prop where
  key : ∀ p ∈ s.Q, p.1 = s.dist p.2
  sorted : s.Q.Pairwise (fun p q => p.1 ≤ q.1)
  nodupv : (s.Q.map Prod.snd).Nodup
  pop_le : ∀ x ∈ P, ∀ p ∈ s.Q, s.dist x ≤ p.1
  pop_out : ∀ x ∈ P, ∀ p ∈ s.Q, p.2 ≠ x
  le_u : ∀ x ∈ P, s.dist x ≤ s.dist u
  reach : ∀ v, s.dist v = ⊤ ∨
    ∃ c, WalkCost nbr w g v c ∧ s.dist v = (c : WithTop α)
  stab : ∀ x, x ≠ u → (∀ p ∈ s.Q, p.2 ≠ x) →
    ∀ v ∈ nbr x, s.dist v ≤ s.dist x + (w x v : WithTop α)

structure LoopInv (w : Fin n → Fin n → α) (nbr : Fin n → List (Fin n))
    (g : Fin n) (P : Finset (Fin n)) (s : DState α n) : Prop where
  key : ∀ p ∈ s.Q, p.1 = s.dist p.2
  sorted : s.Q.Pairwise (fun p q => p.1 ≤ q.1)
  nodupv : (s.Q.map Prod.snd).Nodup
  pop_le : ∀ x ∈ P, ∀ p ∈ s.Q, s.dist x ≤ p.1
  pop_out : ∀ x ∈ P, ∀ p ∈ s.Q, p.2 ≠ x
  reach : ∀ v, s.dist v = ⊤ ∨
    ∃ c, WalkCost nbr w g v c ∧ s.dist v = (c : WithTop α)
  stab : ∀ x, (∀ p ∈ s.Q, p.2 ≠ x) →
    ∀ v ∈ nbr x, s.dist v ≤ s.dist x + (w x v : WithTop α)

/-! ## The steering rule of `setPreferredVelocities`

The loop over candidate vertices tracks a running minimum `minDist` (a float,
starting at infinity, modelled as `WithTop ℝ`) and the index of the best
vertex so far (`minVertex`, starting at `-1`, modelled as `Option (Fin n)`).
For each index `j` in increasing order, the candidate replaces the running
minimum exactly when its cost is strictly below `minDist` and the vertex is
visible from the agent position. -/

def scanMin {n : ℕ} {κ : Type} [LinearOrder κ] [OrderTop κ]
    (cost : Fin n → κ) (vis : Fin n → Bool) : κ × Option (Fin n) :=
  (List.finRange n).foldl
    (fun acc j =>
      if cost j < acc.1 ∧ vis j = true then (cost j, some j) else acc)
    ((⊤ : κ), none)

/-- Cost of steering through vertex `j`: Euclidean distance from the agent to
the waypoint plus the precomputed distance from the waypoint to the goal (the
`distToGoal` entry for the goal of the agent, infinite for unreachable vertices). -/
noncomputable def agentCost {n : ℕ} (pos : Fin n → ℝ × ℝ)
    (dtg : Fin n → WithTop ℝ) (agentPos : ℝ × ℝ) : Fin n → WithTop ℝ :=
  fun j => (RVO.abs (pos j - agentPos) : WithTop ℝ) + dtg j

/-- The vertex selected by the candidate loop (`minVertex`; `none` is the
sentinel `-1`). -/
noncomputable def chooseVertex {n : ℕ} (pos : Fin n → ℝ × ℝ)
    (dtg : Fin n → WithTop ℝ) (vis : Fin n → Bool) (agentPos : ℝ × ℝ) :
    Option (Fin n) :=
  (scanMin (agentCost pos dtg agentPos) vis).2

/-- The preferred velocity of one agent before the random perturbation is
added: zero when no vertex was selected; at a selected vertex of squared
distance zero, zero when it is the goal of the agent and otherwise the normalized
direction to the goal vertex; else the normalized direction to the selected
vertex. -/
noncomputable def preferredVelocity {n : ℕ} (pos : Fin n → ℝ × ℝ)
    (dtg : Fin n → WithTop ℝ) (vis : Fin n → Bool) (agentPos : ℝ × ℝ)
    (goal : Fin n) : ℝ × ℝ :=
  match chooseVertex pos dtg vis agentPos with
  | none => (0, 0)
  | some v =>
    if RVO.absSq (pos v - agentPos) = 0 then
      if v = goal then (0, 0)
      else RVO.normalize (pos goal - agentPos)
    else RVO.normalize (pos v - agentPos)

/-- The termination test `reachedGoal`: false as soon as one agent has squared
distance above 400 from its goal vertex, true otherwise. -/
noncomputable def reachedGoal {m n : ℕ} (agentPos : Fin m → ℝ × ℝ)
    (goals : Fin m → Fin n) (pos : Fin n → ℝ × ℝ) : Bool :=
  (List.finRange m).all
    (fun i => ! decide ((400 : ℝ) < RVO.absSq (agentPos i - pos (goals i))))

/-- Invariant of the candidate scan after the indices of `l` have been
processed. -/
def ScanInv {n : ℕ} {κ : Type} [LinearOrder κ] [OrderTop κ]
    (cost : Fin n → κ) (vis : Fin n → Bool) (l : List (Fin n))
    (acc : κ × Option (Fin n)) : Prop :=
  (acc.2 = none → acc.1 = ⊤ ∧ ∀ j ∈ l, vis j = true → ¬ cost j < ⊤) ∧
  (∀ v, acc.2 = some v → vis v = true ∧ acc.1 = cost v ∧ cost v < ⊤ ∧ v ∈ l ∧
    (∀ j ∈ l, vis j = true → cost v ≤ cost j) ∧
    (∀ j ∈ l, vis j = true → cost j = cost v → v ≤ j))

end Roadmap

/-! ## Lemmas on the vector helpers -/

namespace RVO

theorem absSq_nonneg (v : ℝ × ℝ) : 0 ≤ absSq v :=
  add_nonneg (mul_self_nonneg v.1) (mul_self_nonneg v.2)

theorem abs_nonneg_v (v : ℝ × ℝ) : 0 ≤ abs v := Real.sqrt_nonneg _

theorem absSq_eq_zero_iff {v : ℝ × ℝ} : absSq v = 0 ↔ v = 0 := by
  constructor
  · intro h
    rcases (add_eq_zero_iff_of_nonneg (mul_self_nonneg v.1)
      (mul_self_nonneg v.2)).mp h with ⟨h1, h2⟩
    have e1 : v.1 = 0 := by nlinarith
    have e2 : v.2 = 0 := by nlinarith
    exact Prod.ext e1 e2
  · intro h
    rw [h]
    simp [absSq]

theorem abs_eq_zero_iff {v : ℝ × ℝ} : abs v = 0 ↔ v = 0 := by
  rw [abs, Real.sqrt_eq_zero (absSq_nonneg v), absSq_eq_zero_iff]

theorem abs_normalize {v : ℝ × ℝ} (hv : v ≠ 0) : abs (normalize v) = 1 := by
  have hs : 0 < absSq v :=
    lt_of_le_of_ne (absSq_nonneg v) (fun h => hv (absSq_eq_zero_iff.mp h.symm))
  have ha : 0 < abs v := Real.sqrt_pos.mpr hs
  have hmul : abs v * abs v = absSq v := Real.mul_self_sqrt (le_of_lt hs)
  have hnorm : absSq (normalize v) = 1 := by
    show v.1 / abs v * (v.1 / abs v) + v.2 / abs v * (v.2 / abs v) = 1
    field_simp
    rw [hmul]
    show v.1 * v.1 + v.2 * v.2 = absSq v
    rfl
  rw [abs, hnorm, Real.sqrt_one]

theorem normalize_zero : normalize (0 : ℝ × ℝ) = 0 := by
  simp [normalize, Prod.ext_iff]

theorem abs_zero_v : abs (0 : ℝ × ℝ) = 0 := abs_eq_zero_iff.mpr rfl

end RVO

/-! ## Theorems -/

namespace Roadmap

variable {α : Type} [LinearOrderedAddCommMonoid α] {n : ℕ}

theorem mem_buildRoadmapNeighbors {n : ℕ} (visB : Fin n → Fin n → Bool)
    (i j : Fin n) : j ∈ buildRoadmapNeighbors visB i ↔ visB i j = true := by
  simp [buildRoadmapNeighbors, List.mem_filter, List.mem_finRange]

theorem WalkCost.nonneg {nbr : Fin n → List (Fin n)} {w : Fin n → Fin n → α}
    (hw : ∀ u v, 0 ≤ w u v) {g v : Fin n} {c : α}
    (h : WalkCost nbr w g v c) : 0 ≤ c := by
  induction h with
  | refl => exact le_refl 0
  | tail h hv ih => exact add_nonneg ih (hw _ _)

/-! ### Priority-queue lemmas -/

theorem qInsert_perm (k : WithTop α) (v : Fin n) :
    ∀ l : List (WithTop α × Fin n), (qInsert k v l).Perm ((k, v) :: l)
  | [] => List.Perm.refl _
  | p :: rest => by
    unfold qInsert
    by_cases h : p.1 ≤ k
    · rw [if_pos h]
      exact ((qInsert_perm k v rest).cons p).trans (List.Perm.swap (k, v) p rest)
    · rw [if_neg h]

theorem mem_qInsert {k : WithTop α} {v : Fin n} {l : List (WithTop α × Fin n)}
    {p : WithTop α × Fin n} : p ∈ qInsert k v l ↔ p = (k, v) ∨ p ∈ l := by
  rw [(qInsert_perm k v l).mem_iff, List.mem_cons]

theorem qInsert_sorted {k : WithTop α} {v : Fin n} :
    ∀ {l : List (WithTop α × Fin n)},
      l.Pairwise (fun p q => p.1 ≤ q.1) →
      (qInsert k v l).Pairwise (fun p q => p.1 ≤ q.1)
  | [], _ => by simp [qInsert]
  | p :: rest, h => by
    rw [List.pairwise_cons] at h
    unfold qInsert
    by_cases hpk : p.1 ≤ k
    · rw [if_pos hpk]
      refine List.pairwise_cons.mpr ⟨?_, qInsert_sorted h.2⟩
      intro q hq
      rcases mem_qInsert.mp hq with rfl | hq
      · exact hpk
      · exact h.1 q hq
    · rw [if_neg hpk]
      have hk : k ≤ p.1 := le_of_not_le hpk
      refine List.pairwise_cons.mpr ⟨?_, List.pairwise_cons.mpr ⟨h.1, h.2⟩⟩
      intro q hq
      rcases List.mem_cons.mp hq with rfl | hq
      · exact hk
      · exact hk.trans (h.1 q hq)

theorem relaxEdge_spec {w : Fin n → Fin n → α} {nbr : Fin n → List (Fin n)}
    {g u : Fin n} {P : Finset (Fin n)} (hw : ∀ a b, 0 ≤ w a b)
    {s : DState α n} {v : Fin n} (hv : v ∈ nbr u)
    (h : FoldInv w nbr g u P s) :
    FoldInv w nbr g u P (relaxEdge w u s v)
    ∧ (relaxEdge w u s v).dist u = s.dist u
    ∧ (∀ x, (relaxEdge w u s v).dist x ≤ s.dist x)
    ∧ (relaxEdge w u s v).dist v ≤ s.dist u + (w u v : WithTop α)
    ∧ (∀ x, (∀ p ∈ (relaxEdge w u s v).Q, p.2 ≠ x) →
        (relaxEdge w u s v).dist x = s.dist x ∧ ∀ p ∈ s.Q, p.2 ≠ x) := by
  have hwv : (0 : WithTop α) ≤ (w u v : WithTop α) := by
    exact_mod_cast hw u v
  by_cases hlt : s.dist u + (w u v : WithTop α) < s.dist v
  case neg =>
    have hout : relaxEdge w u s v = s := by
      simp only [relaxEdge, if_neg hlt]
    rw [hout]
    exact ⟨h, rfl, fun x => le_refl _, le_of_not_lt hlt, fun x hx => ⟨rfl, hx⟩⟩
  case pos =>
    set d : WithTop α := s.dist u + (w u v : WithTop α) with hd
    have hvu : v ≠ u := by
      intro hvu
      rw [hvu] at hlt
      exact absurd hlt (not_lt_of_le (le_add_of_nonneg_right hwv))
    have hvP : v ∉ P := by
      intro hvP
      exact absurd hlt (not_lt_of_le ((h.le_u v hvP).trans
        (le_add_of_nonneg_right hwv)))
    have hdout : (relaxEdge w u s v).dist = Function.update s.dist v d := by
      simp only [relaxEdge, if_pos hlt]
    have hqout : (relaxEdge w u s v).Q =
        qInsert d v (s.Q.filter (fun p => p.2 ≠ v)) := by
      simp only [relaxEdge, if_pos hlt]
    have hmem : ∀ p : WithTop α × Fin n,
        p ∈ qInsert d v (s.Q.filter (fun p => p.2 ≠ v)) ↔
          p = (d, v) ∨ (p ∈ s.Q ∧ p.2 ≠ v) := by
      intro p
      rw [mem_qInsert, List.mem_filter]
      simp
    have hdistv : Function.update s.dist v d v = d := Function.update_same v d s.dist
    have hdisto : ∀ x, x ≠ v → Function.update s.dist v d x = s.dist x :=
      fun x hx => Function.update_noteq hx d s.dist
    have hmono : ∀ x, Function.update s.dist v d x ≤ s.dist x := by
      intro x
      by_cases hx : x = v
      · subst hx
        rw [hdistv]
        exact le_of_lt hlt
      · rw [hdisto x hx]
    have hdtop : d ≠ ⊤ := by
      intro htop
      rw [htop] at hlt
      exact not_top_lt hlt
    refine ⟨⟨?_, ?_, ?_, ?_, ?_, ?_, ?_, ?_⟩, ?_, ?_, ?_, ?_⟩
    · -- key
      simp only [hdout, hqout]
      intro p hp
      rcases (hmem p).mp hp with rfl | ⟨hp, hpv⟩
      · simp [hdistv]
      · rw [h.key p hp, hdisto _ hpv]
    · -- sorted
      simp only [hqout]
      exact qInsert_sorted (h.sorted.sublist (List.filter_sublist _))
    · -- nodupv
      simp only [hqout]
      have hperm := (qInsert_perm d v (s.Q.filter (fun p => p.2 ≠ v))).map Prod.snd
      rw [List.Perm.nodup_iff hperm]
      refine List.nodup_cons.mpr ⟨?_, ?_⟩
      · intro hvin
        rcases List.mem_map.mp hvin with ⟨p, hp, hp2⟩
        rcases List.mem_filter.mp hp with ⟨_, hpv⟩
        simp only [decide_eq_true_eq] at hpv
        exact hpv hp2
      · exact h.nodupv.sublist ((List.filter_sublist _).map Prod.snd)
    · -- pop_le
      simp only [hdout, hqout]
      intro x hx p hp
      have hxv : x ≠ v := fun hxv => hvP (hxv ▸ hx)
      rw [hdisto x hxv]
      rcases (hmem p).mp hp with rfl | ⟨hp, _⟩
      · exact (h.le_u x hx).trans (le_add_of_nonneg_right hwv)
      · exact h.pop_le x hx p hp
    · -- pop_out
      simp only [hqout]
      intro x hx p hp
      rcases (hmem p).mp hp with rfl | ⟨hp, _⟩
      · intro hvx
        apply hvP
        have hvx2 : v = x := hvx
        rw [hvx2]
        exact hx
      · exact h.pop_out x hx p hp
    · -- le_u
      simp only [hdout]
      intro x hx
      have hxv : x ≠ v := fun hxv => hvP (hxv ▸ hx)
      rw [hdisto x hxv, hdisto u (Ne.symm hvu)]
      exact h.le_u x hx
    · -- reach
      simp only [hdout]
      intro x
      by_cases hx : x = v
      · subst hx
        right
        have hutop : s.dist u ≠ ⊤ := by
          intro hutop
          rw [hd, hutop, top_add] at hdtop
          exact hdtop rfl
        rcases h.reach u with hu1 | ⟨c, hc, hcu⟩
        · exact absurd hu1 hutop
        · refine ⟨c + w u _, WalkCost.tail hc hv, ?_⟩
          rw [hdistv, hd, hcu, WithTop.coe_add]
      · rw [hdisto x hx]
        exact h.reach x
    · -- stab
      simp only [hdout, hqout]
      intro x hxu hxQ y hy
      have hxv : x ≠ v := by
        intro hxv
        exact hxQ (d, v) ((hmem _).mpr (Or.inl rfl)) (hxv ▸ rfl)
      have hxQ0 : ∀ p ∈ s.Q, p.2 ≠ x := by
        intro p hp hpx
        by_cases hpv : p.2 = v
        · exact hxv (hpx ▸ hpv.symm ▸ rfl)
        · exact hxQ p ((hmem p).mpr (Or.inr ⟨hp, hpv⟩)) hpx
      rw [hdisto x hxv]
      exact (hmono y).trans (h.stab x hxu hxQ0 y hy)
    · -- the distance of u is unchanged
      simp only [hdout]
      exact hdisto u (Ne.symm hvu)
    · -- distances only decrease
      simp only [hdout]
      exact hmono
    · -- the relaxed bound at v
      simp only [hdout]
      rw [hdistv]
    · -- absent vertices kept their distance and were already absent
      simp only [hdout, hqout]
      intro x hx
      have hxv : x ≠ v := by
        intro hxv
        exact hx (d, v) ((hmem _).mpr (Or.inl rfl)) (hxv ▸ rfl)
      refine ⟨hdisto x hxv, ?_⟩
      intro p hp hpx
      by_cases hpv : p.2 = v
      · exact hxv (hpx ▸ hpv.symm ▸ rfl)
      · exact hx p ((hmem p).mpr (Or.inr ⟨hp, hpv⟩)) hpx

theorem foldl_relax_spec {w : Fin n → Fin n → α} {nbr : Fin n → List (Fin n)}
    {g u : Fin n} {P : Finset (Fin n)} (hw : ∀ a b, 0 ≤ w a b) :
    ∀ (L : List (Fin n)) (s : DState α n), (∀ v ∈ L, v ∈ nbr u) →
      FoldInv w nbr g u P s →
      FoldInv w nbr g u P (L.foldl (relaxEdge w u) s)
      ∧ (L.foldl (relaxEdge w u) s).dist u = s.dist u
      ∧ (∀ x, (L.foldl (relaxEdge w u) s).dist x ≤ s.dist x)
      ∧ (∀ v ∈ L, (L.foldl (relaxEdge w u) s).dist v ≤
          (L.foldl (relaxEdge w u) s).dist u + (w u v : WithTop α))
      ∧ (∀ x, (∀ p ∈ (L.foldl (relaxEdge w u) s).Q, p.2 ≠ x) →
          (L.foldl (relaxEdge w u) s).dist x = s.dist x ∧ ∀ p ∈ s.Q, p.2 ≠ x)
  | [], s, _, h =>
    ⟨h, rfl, fun x => le_refl _, fun v hv => absurd hv (List.not_mem_nil v),
      fun x hx => ⟨rfl, hx⟩⟩
  | v :: L, s, hsub, h => by
    have hv : v ∈ nbr u := hsub v (List.mem_cons_self v L)
    obtain ⟨h1, hdu1, hmono1, hbound1, habs1⟩ := relaxEdge_spec hw hv h
    obtain ⟨h2, hdu2, hmono2, hbound2, habs2⟩ :=
      foldl_relax_spec hw L (relaxEdge w u s v)
        (fun x hx => hsub x (List.mem_cons_of_mem v hx)) h1
    rw [List.foldl_cons]
    refine ⟨h2, hdu2.trans hdu1, fun x => (hmono2 x).trans (hmono1 x), ?_, ?_⟩
    · intro y hy
      rcases List.mem_cons.mp hy with rfl | hy
      · refine ((hmono2 _).trans hbound1).trans ?_
        rw [hdu2.trans hdu1]
      · exact hbound2 y hy
    · intro x hx
      obtain ⟨he2, hq2⟩ := habs2 x hx
      obtain ⟨he1, hq1⟩ := habs1 x hq2
      exact ⟨he2.trans he1, hq1⟩

theorem dijkstraStep_spec {w : Fin n → Fin n → α} {nbr : Fin n → List (Fin n)}
    {g : Fin n} {P : Finset (Fin n)} (hw : ∀ a b, 0 ≤ w a b)
    {s : DState α n} {k : WithTop α} {u : Fin n}
    {rest : List (WithTop α × Fin n)} (hQ : s.Q = (k, u) :: rest)
    (h : LoopInv w nbr g P s) :
    LoopInv w nbr g (insert u P) (dijkstraStep w nbr s)
    ∧ u ∉ P
    ∧ ∀ x, (dijkstraStep w nbr s).dist x ≤ s.dist x := by
  obtain ⟨ds, Qs⟩ := s
  simp only at hQ
  subst hQ
  have hheadmem : ((k, u) : WithTop α × Fin n) ∈
      (DState.mk (α := α) ds ((k, u) :: rest)).Q := List.mem_cons_self _ _
  have huP : u ∉ P := fun huP => h.pop_out u huP (k, u) hheadmem rfl
  have hk : k = ds u := h.key (k, u) hheadmem
  have hsorted := h.sorted
  rw [List.pairwise_cons] at hsorted
  have hnodup := h.nodupv
  rw [List.map_cons, List.nodup_cons] at hnodup
  have hfold : FoldInv w nbr g u (insert u P) (DState.mk (α := α) ds rest) := by
    refine ⟨?_, hsorted.2, hnodup.2, ?_, ?_, ?_, h.reach, ?_⟩
    · exact fun p hp => h.key p (List.mem_cons_of_mem _ hp)
    · intro x hx p hp
      rcases Finset.mem_insert.mp hx with rfl | hx
      · show ds x ≤ p.1
        rw [← hk]
        exact hsorted.1 p hp
      · exact h.pop_le x hx p (List.mem_cons_of_mem _ hp)
    · intro x hx p hp
      rcases Finset.mem_insert.mp hx with rfl | hx
      · exact fun hpx => hnodup.1 (List.mem_map.mpr ⟨p, hp, hpx⟩)
      · exact h.pop_out x hx p (List.mem_cons_of_mem _ hp)
    · intro x hx
      rcases Finset.mem_insert.mp hx with rfl | hx
      · exact le_refl _
      · show ds x ≤ ds u
        rw [← hk]
        exact h.pop_le x hx (k, u) hheadmem
    · intro x hxu hxQ y hy
      refine h.stab x ?_ y hy
      intro p hp
      rcases List.mem_cons.mp hp with rfl | hp
      · exact fun hux => hxu hux.symm
      · exact hxQ p hp
  obtain ⟨F, hdu, hmono, hbound, habs⟩ :=
    foldl_relax_spec (u := u) (P := insert u P) hw (nbr u)
      (DState.mk (α := α) ds rest) (fun x hx => hx) hfold
  have hred : dijkstraStep w nbr (DState.mk (α := α) ds ((k, u) :: rest)) =
      (nbr u).foldl (relaxEdge w u) (DState.mk (α := α) ds rest) := rfl
  rw [hred]
  refine ⟨⟨F.key, F.sorted, F.nodupv, F.pop_le, F.pop_out, F.reach, ?_⟩,
    huP, hmono⟩
  intro x hxQ y hy
  by_cases hxu : x = u
  · subst hxu
    exact hbound y hy
  · exact F.stab x hxu hxQ y hy

theorem dijkstraLoop_spec {w : Fin n → Fin n → α} {nbr : Fin n → List (Fin n)}
    {g : Fin n} (hw : ∀ a b, 0 ≤ w a b) :
    ∀ (fuel : ℕ) (P : Finset (Fin n)) (s : DState α n),
      LoopInv w nbr g P s → n ≤ P.card + fuel →
      ∃ P2 : Finset (Fin n), LoopInv w nbr g P2 (dijkstraLoop w nbr fuel s)
        ∧ (dijkstraLoop w nbr fuel s).Q = []
        ∧ ∀ x, (dijkstraLoop w nbr fuel s).dist x ≤ s.dist x
  | 0, P, s, h, hcard => by
    have hcardle : P.card ≤ n := by
      have := Finset.card_le_univ P
      simpa [Finset.card_univ] using this
    have hPuniv : P = Finset.univ :=
      Finset.eq_univ_of_card P (by
        rw [Fintype.card_fin]
        exact le_antisymm hcardle (by omega))
    have hQnil : s.Q = [] := by
      refine List.eq_nil_iff_forall_not_mem.mpr ?_
      intro p hp
      exact h.pop_out p.2 (hPuniv ▸ Finset.mem_univ p.2) p hp rfl
    exact ⟨P, h, hQnil, fun x => le_refl _⟩
  | fuel + 1, P, s, h, hcard => by
    obtain ⟨ds, Qs⟩ := s
    rcases Qs with _ | ⟨⟨k, u⟩, rest⟩
    · have hQnil : (DState.mk (α := α) ds ([] : List (WithTop α × Fin n))).Q = [] :=
        rfl
      exact ⟨P, h, hQnil, fun x => le_refl _⟩
    · obtain ⟨hinv, huP, hmono⟩ := dijkstraStep_spec hw rfl h
      have hcard2 : n ≤ (insert u P).card + fuel := by
        rw [Finset.card_insert_of_not_mem huP]
        omega
      obtain ⟨P2, hI, hQnil, hmono2⟩ :=
        dijkstraLoop_spec hw fuel (insert u P)
          (dijkstraStep w nbr (DState.mk (α := α) ds ((k, u) :: rest)))
          hinv hcard2
      exact ⟨P2, hI, hQnil, fun x => (hmono2 x).trans (hmono x)⟩

theorem dijkstraInit_inv {w : Fin n → Fin n → α} {nbr : Fin n → List (Fin n)}
    (g : Fin n) : LoopInv w nbr g ∅ (dijkstraInit g) := by
  refine ⟨?_, ?_, ?_, ?_, ?_, ?_, ?_⟩
  · intro p hp
    rcases List.mem_singleton.mp hp with rfl
    show (0 : WithTop α) = Function.update (fun _ => (⊤ : WithTop α)) g 0 g
    rw [Function.update_same]
  · exact List.pairwise_singleton _ _
  · simp [dijkstraInit]
  · intro x hx
    exact absurd hx (Finset.not_mem_empty x)
  · intro x hx
    exact absurd hx (Finset.not_mem_empty x)
  · intro v
    by_cases hv : v = g
    · subst hv
      right
      exact ⟨0, WalkCost.refl, by simp [dijkstraInit]⟩
    · left
      show Function.update (fun _ => (⊤ : WithTop α)) g 0 v = ⊤
      rw [Function.update_noteq hv]
  · intro x hxQ y hy
    have hxg : x ≠ g := by
      intro hxg
      exact hxQ ((0 : WithTop α), g) (List.mem_singleton_self _) (by rw [hxg])
    have hxtop : (dijkstraInit (α := α) g).dist x = ⊤ := by
      show Function.update (fun _ => (⊤ : WithTop α)) g 0 x = ⊤
      rw [Function.update_noteq hxg]
    rw [hxtop, top_add]
    exact le_top

theorem distToGoal_inv (w : Fin n → Fin n → α) (nbr : Fin n → List (Fin n))
    (hw : ∀ a b, 0 ≤ w a b) (g : Fin n) :
    ∃ P2 : Finset (Fin n),
      LoopInv w nbr g P2 (dijkstraLoop w nbr n (dijkstraInit g))
      ∧ (dijkstraLoop w nbr n (dijkstraInit g)).Q = []
      ∧ ∀ x, distToGoal w nbr g x ≤ (dijkstraInit (α := α) g).dist x := by
  exact dijkstraLoop_spec hw n ∅ (dijkstraInit g) (dijkstraInit_inv g) (by simp)

theorem distToGoal_le_walk {w : Fin n → Fin n → α} {nbr : Fin n → List (Fin n)}
    (hw : ∀ a b, 0 ≤ w a b) {g v : Fin n} {c : α}
    (h : WalkCost nbr w g v c) : distToGoal w nbr g v ≤ (c : WithTop α) := by
  obtain ⟨P2, hI, hQnil, hmono⟩ := distToGoal_inv w nbr hw g
  induction h with
  | refl =>
    have h0 : (dijkstraInit (α := α) g).dist g = 0 := by
      show Function.update (fun _ => (⊤ : WithTop α)) g 0 g = 0
      rw [Function.update_same]
    have := hmono g
    rw [h0] at this
    rw [← WithTop.coe_zero] at this
    exact this
  | tail hwalk hnb ih =>
    have hstep := hI.stab _ (fun p hp => absurd (hQnil ▸ hp) (List.not_mem_nil p))
      _ hnb
    refine hstep.trans ?_
    rw [WithTop.coe_add]
    exact add_le_add_right ih _

theorem distToGoal_reach (w : Fin n → Fin n → α) (nbr : Fin n → List (Fin n))
    (hw : ∀ a b, 0 ≤ w a b) (g v : Fin n) :
    distToGoal w nbr g v = ⊤ ∨
      ∃ c, WalkCost nbr w g v c ∧ distToGoal w nbr g v = (c : WithTop α) := by
  obtain ⟨P2, hI, _, _⟩ := distToGoal_inv w nbr hw g
  exact hI.reach v

theorem dijkstraLoop_eq_of_empty {w : Fin n → Fin n → α}
    {nbr : Fin n → List (Fin n)} :
    ∀ (fuel : ℕ) (s : DState α n), s.Q = [] → dijkstraLoop w nbr fuel s = s
  | 0, _, _ => rfl
  | fuel + 1, s, h => by
    obtain ⟨ds, Qs⟩ := s
    rcases Qs with _ | ⟨p, l⟩
    · rfl
    · exact absurd h (by simp)

theorem dijkstraLoop_add {w : Fin n → Fin n → α} {nbr : Fin n → List (Fin n)} :
    ∀ (a b : ℕ) (s : DState α n),
      dijkstraLoop w nbr (a + b) s =
        dijkstraLoop w nbr b (dijkstraLoop w nbr a s)
  | 0, b, s => by
    rw [Nat.zero_add]
    rfl
  | a + 1, b, s => by
    rw [Nat.succ_add]
    obtain ⟨ds, Qs⟩ := s
    rcases Qs with _ | ⟨p, l⟩
    · rw [dijkstraLoop_eq_of_empty (a + 1) (DState.mk (α := α) ds []) rfl,
        dijkstraLoop_eq_of_empty (a + b + 1) (DState.mk (α := α) ds []) rfl,
        dijkstraLoop_eq_of_empty b (DState.mk (α := α) ds []) rfl]
    · have h1 : dijkstraLoop w nbr (a + b + 1) (DState.mk (α := α) ds (p :: l)) =
          dijkstraLoop w nbr (a + b)
            (dijkstraStep w nbr (DState.mk (α := α) ds (p :: l))) := rfl
      have h2 : dijkstraLoop w nbr (a + 1) (DState.mk (α := α) ds (p :: l)) =
          dijkstraLoop w nbr a
            (dijkstraStep w nbr (DState.mk (α := α) ds (p :: l))) := rfl
      rw [h1, h2, dijkstraLoop_add a b]

/-- With at least `n` units of fuel the run is insensitive to extra fuel, so
the fuelled loop computes what the unbounded C++ `while` loop computes. -/
theorem distToGoal_fuel_stable {w : Fin n → Fin n → α}
    {nbr : Fin n → List (Fin n)} (hw : ∀ a b, 0 ≤ w a b) (g : Fin n) (k : ℕ) :
    (dijkstraLoop w nbr (n + k) (dijkstraInit g)).dist = distToGoal w nbr g := by
  obtain ⟨_, _, hQnil, _⟩ := distToGoal_inv w nbr hw g
  rw [dijkstraLoop_add, dijkstraLoop_eq_of_empty _ _ hQnil]
  rfl

theorem distToGoal_self_zero_aux {w : Fin n → Fin n → α}
    {nbr : Fin n → List (Fin n)} (hw : ∀ a b, 0 ≤ w a b) (g : Fin n) :
    distToGoal w nbr g g = 0 := by
  have hle : distToGoal w nbr g g ≤ ((0 : α) : WithTop α) :=
    distToGoal_le_walk hw WalkCost.refl
  rcases distToGoal_reach w nbr hw g g with htop | ⟨c, hc, hec⟩
  · rw [htop] at hle
    exact absurd hle (by simp)
  · have hc0 : c ≤ 0 := by
      rw [hec] at hle
      exact_mod_cast hle
    have hge := WalkCost.nonneg hw hc
    rw [hec, le_antisymm hc0 hge, WithTop.coe_zero]

theorem distToGoal_nonneg_aux {w : Fin n → Fin n → α}
    {nbr : Fin n → List (Fin n)} (hw : ∀ a b, 0 ≤ w a b) (g v : Fin n) :
    0 ≤ distToGoal w nbr g v := by
  rcases distToGoal_reach w nbr hw g v with htop | ⟨c, hc, hec⟩
  · rw [htop]
    exact le_top
  · rw [hec]
    exact_mod_cast WalkCost.nonneg hw hc

/-- C1: after the multi-goal shortest-path phase of `buildRoadmap`, for a
roadmap graph built from a symmetric visibility test, with nonnegative edge
weights, the `distToGoal` column of any goal `g` holds at every vertex `v`
reachable from `g` the length of a shortest walk of the visibility graph from
`g` to `v`, and holds infinity at every vertex unreachable from `g`. -/
theorem distToGoal_shortest {n : ℕ} {α : Type} [LinearOrderedAddCommMonoid α]
    (visB : Fin n → Fin n → Bool) (w : Fin n → Fin n → α)
    (hsym : ∀ i j, visB i j = visB j i) (hw : ∀ u v, 0 ≤ w u v) (g v : Fin n) :
    ((∃ c, WalkCost (buildRoadmapNeighbors visB) w g v c) →
      ∃ c, WalkCost (buildRoadmapNeighbors visB) w g v c ∧
        distToGoal w (buildRoadmapNeighbors visB) g v = (c : WithTop α) ∧
        ∀ d, WalkCost (buildRoadmapNeighbors visB) w g v d → c ≤ d) ∧
    ((¬ ∃ c, WalkCost (buildRoadmapNeighbors visB) w g v c) →
      distToGoal w (buildRoadmapNeighbors visB) g v = ⊤) := by
  constructor
  · rintro ⟨c0, hc0⟩
    rcases distToGoal_reach w (buildRoadmapNeighbors visB) hw g v with
      htop | ⟨c, hc, hec⟩
    · have hle := distToGoal_le_walk hw hc0
      rw [htop] at hle
      exact absurd hle (by simp)
    · refine ⟨c, hc, hec, ?_⟩
      intro d hd
      have hle := distToGoal_le_walk hw hd
      rw [hec] at hle
      exact_mod_cast hle
  · intro hnone
    rcases distToGoal_reach w (buildRoadmapNeighbors visB) hw g v with
      htop | ⟨c, hc, _⟩
    · exact htop
    · exact absurd ⟨c, hc⟩ hnone

/-- Witness for C1 at a concrete two-vertex graph with all pairs visible and
unit edge weights. -/
theorem distToGoal_shortest_witness :
    (∀ i j : Fin 2, (fun _ _ : Fin 2 => true) i j = (fun _ _ : Fin 2 => true) j i)
    ∧ (∀ u v : Fin 2, (0 : ℕ) ≤ (fun _ _ : Fin 2 => (1 : ℕ)) u v)
    ∧ (((∃ c, WalkCost (buildRoadmapNeighbors (fun _ _ : Fin 2 => true))
          (fun _ _ : Fin 2 => (1 : ℕ)) 0 1 c) →
        ∃ c, WalkCost (buildRoadmapNeighbors (fun _ _ : Fin 2 => true))
            (fun _ _ : Fin 2 => (1 : ℕ)) 0 1 c ∧
          distToGoal (fun _ _ : Fin 2 => (1 : ℕ))
            (buildRoadmapNeighbors (fun _ _ : Fin 2 => true)) 0 1 = (c : WithTop ℕ) ∧
          ∀ d, WalkCost (buildRoadmapNeighbors (fun _ _ : Fin 2 => true))
            (fun _ _ : Fin 2 => (1 : ℕ)) 0 1 d → c ≤ d) ∧
      ((¬ ∃ c, WalkCost (buildRoadmapNeighbors (fun _ _ : Fin 2 => true))
          (fun _ _ : Fin 2 => (1 : ℕ)) 0 1 c) →
        distToGoal (fun _ _ : Fin 2 => (1 : ℕ))
          (buildRoadmapNeighbors (fun _ _ : Fin 2 => true)) 0 1 = ⊤)) :=
  ⟨fun _ _ => rfl, fun _ _ => Nat.zero_le _,
    distToGoal_shortest (fun _ _ => true) (fun _ _ => (1 : ℕ))
      (fun _ _ => rfl) (fun _ _ => Nat.zero_le _) 0 1⟩

/-- C8: after the shortest-path phase, `distToGoal[g][g] = 0` for every goal
vertex `g`, for any roadmap graph with nonnegative edge weights. -/
theorem distToGoal_self_zero {n : ℕ} {α : Type} [LinearOrderedAddCommMonoid α]
    (visB : Fin n → Fin n → Bool) (w : Fin n → Fin n → α)
    (hw : ∀ u v, 0 ≤ w u v) (g : Fin n) :
    distToGoal w (buildRoadmapNeighbors visB) g g = 0 :=
  distToGoal_self_zero_aux hw g

/-- Witness for C8 at a concrete one-vertex graph. -/
theorem distToGoal_self_zero_witness :
    (∀ u v : Fin 1, (0 : ℕ) ≤ (fun _ _ : Fin 1 => (1 : ℕ)) u v)
    ∧ distToGoal (fun _ _ : Fin 1 => (1 : ℕ))
        (buildRoadmapNeighbors (fun _ _ : Fin 1 => true)) 0 0 = 0 :=
  ⟨fun _ _ => Nat.zero_le _,
    distToGoal_self_zero (fun _ _ => true) (fun _ _ => (1 : ℕ))
      (fun _ _ => Nat.zero_le _) 0⟩

/-- C3 counterexample: the neighbour loop of `buildRoadmap` has no `i ≠ j`
guard, so with a visibility test that holds for the coincident pair (vertex 0
seen from itself), the self-loop `0 ∈ neighbors[0]` is recorded, contradicting
the claim that the own index of a vertex never appears in its neighbour list. -/
theorem buildRoadmapNeighbors_self_loop_cex :
    (0 : Fin 1) ∈ buildRoadmapNeighbors (fun _ _ => true) (0 : Fin 1) := by
  decide

/-- C3 amended: the builder records `j ∈ neighbors[i]` for every ordered pair
`(i, j)`, the self-pair `i = j` included, exactly when the visibility test on
the pair succeeds; self-loops do occur whenever a vertex is visible from
itself. -/
theorem buildRoadmapNeighbors_mem {n : ℕ} (visB : Fin n → Fin n → Bool)
    (i j : Fin n) : j ∈ buildRoadmapNeighbors visB i ↔ visB i j = true :=
  mem_buildRoadmapNeighbors visB i j

/-- C4: with a symmetric visibility test, the produced adjacency structure is
symmetric. -/
theorem buildRoadmapNeighbors_symm {n : ℕ} (visB : Fin n → Fin n → Bool)
    (hsym : ∀ i j, visB i j = visB j i) (u v : Fin n) :
    v ∈ buildRoadmapNeighbors visB u ↔ u ∈ buildRoadmapNeighbors visB v := by
  rw [mem_buildRoadmapNeighbors, mem_buildRoadmapNeighbors, hsym]

/-- Witness for C4 at a concrete two-vertex graph. -/
theorem buildRoadmapNeighbors_symm_witness :
    (∀ i j : Fin 2, (fun a b : Fin 2 => a = b || a < b || b < a) i j =
      (fun a b : Fin 2 => a = b || a < b || b < a) j i)
    ∧ ((1 : Fin 2) ∈ buildRoadmapNeighbors
        (fun a b : Fin 2 => a = b || a < b || b < a) 0 ↔
      (0 : Fin 2) ∈ buildRoadmapNeighbors
        (fun a b : Fin 2 => a = b || a < b || b < a) 1) :=
  ⟨by decide,
    buildRoadmapNeighbors_symm (fun a b : Fin 2 => a = b || a < b || b < a)
      (by decide) 0 1⟩

theorem scanMin_go {n : ℕ} {κ : Type} [LinearOrder κ] [OrderTop κ]
    (cost : Fin n → κ) (vis : Fin n → Bool) :
    ∀ (rest l : List (Fin n)) (acc : κ × Option (Fin n)),
      ScanInv cost vis l acc → (l ++ rest).Pairwise (· < ·) →
      ScanInv cost vis (l ++ rest)
        (rest.foldl (fun acc j =>
          if cost j < acc.1 ∧ vis j = true then (cost j, some j) else acc) acc)
  | [], l, acc, h, _ => by simpa using h
  | j :: rest, l, acc, h, hpw => by
    have hcross : ∀ x ∈ l, x < j := by
      rcases List.pairwise_append.mp hpw with ⟨_, _, hc⟩
      exact fun x hx => hc x hx j (List.mem_cons_self _ _)
    have hpw2 : ((l ++ [j]) ++ rest).Pairwise (· < ·) := by
      rw [List.append_assoc]
      simpa using hpw
    have hinv2 : ScanInv cost vis (l ++ [j])
        (if cost j < acc.1 ∧ vis j = true then (cost j, some j) else acc) := by
      by_cases hc : cost j < acc.1 ∧ vis j = true
      · rw [if_pos hc]
        constructor
        · intro hnone
          exact absurd hnone (by simp)
        · intro v hv
          have hvj : j = v := by simpa using hv
          subst hvj
          have hjtop : cost j < ⊤ := lt_of_lt_of_le hc.1 le_top
          refine ⟨hc.2, rfl, hjtop,
            List.mem_append_right _ (List.mem_singleton_self j), ?_, ?_⟩
          · intro x hx hvx
            rcases List.mem_append.mp hx with hx | hx
            · rcases ho : acc.2 with _ | v0
              · obtain ⟨htop, hnone⟩ := h.1 ho
                exact le_trans (le_of_lt hjtop) (not_lt.mp (hnone x hx hvx))
              · obtain ⟨_, heq, _, _, hmin0, _⟩ := h.2 v0 ho
                rw [heq] at hc
                exact le_of_lt (lt_of_lt_of_le hc.1 (hmin0 x hx hvx))
            · rcases List.mem_singleton.mp hx with rfl
              exact le_refl _
          · intro x hx hvx hcx
            rcases List.mem_append.mp hx with hx | hx
            · exfalso
              rcases ho : acc.2 with _ | v0
              · obtain ⟨htop, hnone⟩ := h.1 ho
                have hx2 := hnone x hx hvx
                rw [hcx] at hx2
                exact hx2 hjtop
              · obtain ⟨_, heq, _, _, hmin0, _⟩ := h.2 v0 ho
                rw [heq] at hc
                have := lt_of_lt_of_le hc.1 (hmin0 x hx hvx)
                rw [hcx] at this
                exact lt_irrefl _ this
            · rcases List.mem_singleton.mp hx with rfl
              exact le_refl _
      · rw [if_neg hc]
        constructor
        · intro h0
          obtain ⟨htop, hnone⟩ := h.1 h0
          refine ⟨htop, ?_⟩
          intro x hx hvx
          rcases List.mem_append.mp hx with hx | hx
          · exact hnone x hx hvx
          · rcases List.mem_singleton.mp hx with rfl
            intro hltx
            refine hc ⟨?_, hvx⟩
            rw [htop]
            exact hltx
        · intro v hv
          obtain ⟨hvv, heq, hlt, hmem, hmin, htie⟩ := h.2 v hv
          refine ⟨hvv, heq, hlt, List.mem_append_left _ hmem, ?_, ?_⟩
          · intro x hx hvx
            rcases List.mem_append.mp hx with hx | hx
            · exact hmin x hx hvx
            · rcases List.mem_singleton.mp hx with rfl
              have hle : acc.1 ≤ cost x := not_lt.mp (fun hl => hc ⟨hl, hvx⟩)
              rw [heq] at hle
              exact hle
          · intro x hx hvx hcx
            rcases List.mem_append.mp hx with hx | hx
            · exact htie x hx hvx hcx
            · rcases List.mem_singleton.mp hx with rfl
              exact le_of_lt (hcross v hmem)
    have hgo := scanMin_go cost vis rest (l ++ [j]) _ hinv2 hpw2
    have heql : (l ++ [j]) ++ rest = l ++ j :: rest := by simp
    rw [heql] at hgo
    rw [List.foldl_cons]
    exact hgo

theorem scanMin_inv {n : ℕ} {κ : Type} [LinearOrder κ] [OrderTop κ]
    (cost : Fin n → κ) (vis : Fin n → Bool) :
    ScanInv cost vis (List.finRange n) (scanMin cost vis) := by
  have h0 : ScanInv cost vis [] ((⊤ : κ), none) := by
    constructor
    · intro _
      exact ⟨rfl, by simp⟩
    · intro v hv
      exact absurd hv (by simp)
  have hgo := scanMin_go cost vis (List.finRange n) [] _ h0
    (by simpa using List.pairwise_lt_finRange n)
  simpa [scanMin] using hgo

theorem scanMin_some_spec {n : ℕ} {κ : Type} [LinearOrder κ] [OrderTop κ]
    {cost : Fin n → κ} {vis : Fin n → Bool} {v : Fin n}
    (h : (scanMin cost vis).2 = some v) :
    vis v = true ∧ cost v < ⊤ ∧ (∀ j, vis j = true → cost v ≤ cost j) ∧
    ∀ j, vis j = true → cost j = cost v → v ≤ j := by
  obtain ⟨hv, _, hlt, _, hmin, htie⟩ := (scanMin_inv cost vis).2 v h
  exact ⟨hv, hlt, fun j hj => hmin j (List.mem_finRange j) hj,
    fun j hj => htie j (List.mem_finRange j) hj⟩

theorem scanMin_none_spec {n : ℕ} {κ : Type} [LinearOrder κ] [OrderTop κ]
    {cost : Fin n → κ} {vis : Fin n → Bool}
    (h : (scanMin cost vis).2 = none) :
    ∀ j, vis j = true → ¬ cost j < ⊤ := by
  obtain ⟨_, hall⟩ := (scanMin_inv cost vis).1 h
  exact fun j => hall j (List.mem_finRange j)

theorem scanMin_some_of_finite {n : ℕ} {κ : Type} [LinearOrder κ] [OrderTop κ]
    (cost : Fin n → κ) {vis : Fin n → Bool} {j : Fin n}
    (hj : vis j = true) (hlt : cost j < ⊤) :
    ∃ v, (scanMin cost vis).2 = some v := by
  rcases ho : (scanMin cost vis).2 with _ | v
  · exact absurd hlt (scanMin_none_spec ho j hj)
  · exact ⟨v, rfl⟩

theorem preferredVelocity_none {n : ℕ} {pos : Fin n → ℝ × ℝ}
    {dtg : Fin n → WithTop ℝ} {vis : Fin n → Bool} {agentPos : ℝ × ℝ}
    (goal : Fin n) (h : chooseVertex pos dtg vis agentPos = none) :
    preferredVelocity pos dtg vis agentPos goal = (0, 0) := by
  rw [preferredVelocity, h]

theorem preferredVelocity_some {n : ℕ} {pos : Fin n → ℝ × ℝ}
    {dtg : Fin n → WithTop ℝ} {vis : Fin n → Bool} {agentPos : ℝ × ℝ}
    {v : Fin n} (goal : Fin n)
    (h : chooseVertex pos dtg vis agentPos = some v) :
    preferredVelocity pos dtg vis agentPos goal =
      if RVO.absSq (pos v - agentPos) = 0 then
        if v = goal then (0, 0)
        else RVO.normalize (pos goal - agentPos)
      else RVO.normalize (pos v - agentPos) := by
  rw [preferredVelocity, h]

/-- C2 counterexample: a single vertex that is visible from the agent (and
hence trivially minimizes the cost among visible vertices) but has infinite
`distToGoal` is never selected: the strict comparison against the infinite
initial `minDist` fails, `minVertex` stays `-1`, and the loop of
`setPreferredVelocities` selects no vertex at all. -/
theorem chooseVertex_cex :
    chooseVertex (fun _ : Fin 1 => ((0 : ℝ), 0)) (fun _ => (⊤ : WithTop ℝ))
        (fun _ => true) ((0 : ℝ), 0) = none
    ∧ (fun _ : Fin 1 => true) (0 : Fin 1) = true
    ∧ ∀ u : Fin 1,
        agentCost (fun _ : Fin 1 => ((0 : ℝ), 0)) (fun _ => (⊤ : WithTop ℝ))
          ((0 : ℝ), 0) 0 ≤
        agentCost (fun _ : Fin 1 => ((0 : ℝ), 0)) (fun _ => (⊤ : WithTop ℝ))
          ((0 : ℝ), 0) u := by
  have htop : ∀ u : Fin 1,
      agentCost (fun _ : Fin 1 => ((0 : ℝ), 0)) (fun _ => (⊤ : WithTop ℝ))
        ((0 : ℝ), 0) u = ⊤ := by
    intro u
    simp [agentCost]
  refine ⟨?_, rfl, ?_⟩
  · rcases ho : chooseVertex (fun _ : Fin 1 => ((0 : ℝ), 0))
      (fun _ => (⊤ : WithTop ℝ)) (fun _ => true) ((0 : ℝ), 0) with _ | v
    · rfl
    · obtain ⟨_, hlt, _, _⟩ := scanMin_some_spec ho
      rw [htop v] at hlt
      exact absurd hlt (lt_irrefl _)
  · intro u
    rw [htop 0, htop u]

/-- C2 corrected: whenever the candidate loop selects a vertex, that vertex is
visible and minimizes `dist(agentPos, waypoint) + distToGoal` among the
visible vertices, and a vertex is selected whenever some visible vertex has a
finite cost; vertices that are not visible are never selected. -/
theorem chooseVertex_min_visible {n : ℕ} (pos : Fin n → ℝ × ℝ)
    (dtg : Fin n → WithTop ℝ) (vis : Fin n → Bool) (agentPos : ℝ × ℝ) :
    (∀ v, chooseVertex pos dtg vis agentPos = some v →
      vis v = true ∧ ∀ u, vis u = true →
        agentCost pos dtg agentPos v ≤ agentCost pos dtg agentPos u)
    ∧ ((∃ j, vis j = true ∧ agentCost pos dtg agentPos j < ⊤) →
      ∃ v, chooseVertex pos dtg vis agentPos = some v) := by
  constructor
  · intro v hv
    obtain ⟨hvis, _, hmin, _⟩ := scanMin_some_spec hv
    exact ⟨hvis, hmin⟩
  · rintro ⟨j, hj, hlt⟩
    exact scanMin_some_of_finite _ hj hlt

/-- C10: among equal-cost visible candidates the loop keeps the first one it
met, so the selected vertex has the smallest index among visible vertices
attaining its cost: the strict less-than comparison never replaces an earlier
equal-cost candidate. -/
theorem chooseVertex_tie_lowest {n : ℕ} (pos : Fin n → ℝ × ℝ)
    (dtg : Fin n → WithTop ℝ) (vis : Fin n → Bool) (agentPos : ℝ × ℝ)
    (v u : Fin n) (hv : chooseVertex pos dtg vis agentPos = some v)
    (hu : vis u = true)
    (hc : agentCost pos dtg agentPos u = agentCost pos dtg agentPos v) :
    v ≤ u := by
  obtain ⟨_, _, _, htie⟩ := scanMin_some_spec hv
  exact htie u hu hc

/-- Witness for C10: two coincident waypoints with zero `distToGoal` tie at
cost zero and the loop keeps vertex 0, the smaller index. -/
theorem chooseVertex_tie_lowest_witness :
    chooseVertex (fun _ : Fin 2 => ((0 : ℝ), 0)) (fun _ => (0 : WithTop ℝ))
        (fun _ => true) ((0 : ℝ), 0) = some 0
    ∧ (fun _ : Fin 2 => true) (1 : Fin 2) = true
    ∧ agentCost (fun _ : Fin 2 => ((0 : ℝ), 0)) (fun _ => (0 : WithTop ℝ))
        ((0 : ℝ), 0) 1 =
      agentCost (fun _ : Fin 2 => ((0 : ℝ), 0)) (fun _ => (0 : WithTop ℝ))
        ((0 : ℝ), 0) 0
    ∧ (0 : Fin 2) ≤ 1 := by
  have hcost : ∀ j : Fin 2, agentCost (fun _ : Fin 2 => ((0 : ℝ), 0))
      (fun _ => (0 : WithTop ℝ)) ((0 : ℝ), 0) j = 0 := by
    intro j
    simp [agentCost, RVO.abs_zero_v]
  have hchoose : chooseVertex (fun _ : Fin 2 => ((0 : ℝ), 0))
      (fun _ => (0 : WithTop ℝ)) (fun _ => true) ((0 : ℝ), 0) = some 0 := by
    have hfr : List.finRange 2 = [0, 1] := by decide
    rw [chooseVertex, scanMin, hfr]
    simp only [List.foldl_cons, List.foldl_nil, hcost]
    simp [WithTop.top_pos]
  exact ⟨hchoose, rfl, (hcost 1).trans (hcost 0).symm,
    chooseVertex_tie_lowest _ _ _ _ 0 1 hchoose rfl
      ((hcost 1).trans (hcost 0).symm)⟩

/-- C5: an agent whose position coincides exactly with the position
of its goal vertex receives the zero preferred velocity before perturbation, given that
the goal vertex is visible from the agent (coincident points are visible) and
the distance table satisfies the invariants established by the build phase
(`distToGoal[goal][goal] = 0` and nonnegativity). -/
theorem preferredVelocity_at_goal {n : ℕ} (pos : Fin n → ℝ × ℝ)
    (dtg : Fin n → WithTop ℝ) (vis : Fin n → Bool) (goal : Fin n)
    (agentPos : ℝ × ℝ) (hpos : agentPos = pos goal) (hvis : vis goal = true)
    (h0 : dtg goal = 0) (hnn : ∀ j, 0 ≤ dtg j) :
    preferredVelocity pos dtg vis agentPos goal = (0, 0) := by
  have hsubg : pos goal - agentPos = 0 := by rw [hpos, sub_self]
  have hcg : agentCost pos dtg agentPos goal = 0 := by
    simp [agentCost, hsubg, RVO.abs_zero_v, h0]
  obtain ⟨v, hv⟩ := scanMin_some_of_finite (agentCost pos dtg agentPos) hvis
    (by rw [hcg]; exact WithTop.top_pos)
  obtain ⟨hvisv, hlt, hmin, htie⟩ := scanMin_some_spec hv
  have hle : agentCost pos dtg agentPos v ≤ 0 := by
    have hm := hmin goal hvis
    rwa [hcg] at hm
  have habs0 : ((RVO.abs (pos v - agentPos) : ℝ) : WithTop ℝ) ≤ 0 :=
    le_trans (le_add_of_nonneg_right (hnn v)) hle
  have habsr : RVO.abs (pos v - agentPos) = 0 := by
    have h1 : (0 : ℝ) ≤ RVO.abs (pos v - agentPos) := RVO.abs_nonneg_v _
    have h2 : RVO.abs (pos v - agentPos) ≤ 0 := by exact_mod_cast habs0
    linarith
  have hsubv : pos v - agentPos = 0 := RVO.abs_eq_zero_iff.mp habsr
  have hsq : RVO.absSq (pos v - agentPos) = 0 := by
    rw [hsubv]
    exact RVO.absSq_eq_zero_iff.mpr rfl
  rw [preferredVelocity_some goal hv, if_pos hsq]
  by_cases hvg : v = goal
  · rw [if_pos hvg]
  · rw [if_neg hvg, hsubg, RVO.normalize_zero]
    rfl

/-- Witness for C5: a single vertex that is its own goal, with the agent
standing on it. -/
theorem preferredVelocity_at_goal_witness :
    ((0 : ℝ), (0 : ℝ)) = (fun _ : Fin 1 => ((0 : ℝ), (0 : ℝ))) 0
    ∧ (fun _ : Fin 1 => true) (0 : Fin 1) = true
    ∧ (fun _ : Fin 1 => (0 : WithTop ℝ)) (0 : Fin 1) = 0
    ∧ (∀ j : Fin 1, (0 : WithTop ℝ) ≤ (fun _ : Fin 1 => (0 : WithTop ℝ)) j)
    ∧ preferredVelocity (fun _ : Fin 1 => ((0 : ℝ), (0 : ℝ)))
        (fun _ => (0 : WithTop ℝ)) (fun _ => true) ((0 : ℝ), (0 : ℝ)) 0 =
        (0, 0) :=
  ⟨rfl, rfl, rfl, fun _ => le_refl _,
    preferredVelocity_at_goal _ _ _ _ _ rfl rfl rfl (fun _ => le_refl _)⟩

/-- C6: the two degenerate runtime cases are handled by a fallback, not an
error: with no visible vertex the output is the zero vector, and with the
selected vertex coincident with the agent but distinct from its goal the
output is the normalized direction from the agent to the goal vertex,
bypassing the graph (a unit vector whenever the goal vertex is away from the
agent). -/
theorem preferredVelocity_degenerate {n : ℕ} (pos : Fin n → ℝ × ℝ)
    (dtg : Fin n → WithTop ℝ) (vis : Fin n → Bool) (agentPos : ℝ × ℝ)
    (goal : Fin n) :
    ((∀ j, vis j = false) →
      preferredVelocity pos dtg vis agentPos goal = (0, 0))
    ∧ ∀ v, chooseVertex pos dtg vis agentPos = some v →
        RVO.absSq (pos v - agentPos) = 0 → v ≠ goal →
        preferredVelocity pos dtg vis agentPos goal =
          RVO.normalize (pos goal - agentPos)
        ∧ (pos goal - agentPos ≠ 0 →
            RVO.abs (preferredVelocity pos dtg vis agentPos goal) = 1) := by
  constructor
  · intro hall
    rcases ho : chooseVertex pos dtg vis agentPos with _ | v
    · exact preferredVelocity_none goal ho
    · obtain ⟨hvis, _, _, _⟩ := scanMin_some_spec ho
      rw [hall v] at hvis
      exact absurd hvis (by simp)
  · intro v hv hsq hne
    have hpv : preferredVelocity pos dtg vis agentPos goal =
        RVO.normalize (pos goal - agentPos) := by
      rw [preferredVelocity_some goal hv, if_pos hsq, if_neg hne]
    refine ⟨hpv, ?_⟩
    intro hgne
    rw [hpv]
    exact RVO.abs_normalize hgne

/-- Witness for C6: first a scenario with no visible vertex, then a scenario
with the agent sitting on waypoint 0 while its goal is the distinct waypoint 1
at distance one. -/
theorem preferredVelocity_degenerate_witness :
    preferredVelocity (fun _ : Fin 1 => ((0 : ℝ), 0))
        (fun _ => (0 : WithTop ℝ)) (fun _ => false) ((0 : ℝ), 0) 0 = (0, 0)
    ∧ chooseVertex (fun j : Fin 2 => if j = 0 then ((0 : ℝ), 0) else ((1 : ℝ), 0))
        (fun _ => (0 : WithTop ℝ)) (fun _ => true) ((0 : ℝ), 0) = some 0
    ∧ RVO.absSq ((fun j : Fin 2 => if j = 0 then ((0 : ℝ), 0) else ((1 : ℝ), 0)) 0 -
        ((0 : ℝ), 0)) = 0
    ∧ (0 : Fin 2) ≠ 1
    ∧ preferredVelocity
        (fun j : Fin 2 => if j = 0 then ((0 : ℝ), 0) else ((1 : ℝ), 0))
        (fun _ => (0 : WithTop ℝ)) (fun _ => true) ((0 : ℝ), 0) 1 =
        RVO.normalize
          ((fun j : Fin 2 => if j = 0 then ((0 : ℝ), 0) else ((1 : ℝ), 0)) 1 -
            ((0 : ℝ), 0)) := by
  have habs1 : RVO.abs ((1 : ℝ), (0 : ℝ)) = 1 := by
    norm_num [RVO.abs, RVO.absSq]
  have hc0 : agentCost (fun j : Fin 2 => if j = 0 then ((0 : ℝ), 0) else ((1 : ℝ), 0))
      (fun _ => (0 : WithTop ℝ)) ((0 : ℝ), 0) 0 = 0 := by
    simp [agentCost, RVO.abs_zero_v]
  have hc1 : agentCost (fun j : Fin 2 => if j = 0 then ((0 : ℝ), 0) else ((1 : ℝ), 0))
      (fun _ => (0 : WithTop ℝ)) ((0 : ℝ), 0) 1 = (1 : WithTop ℝ) := by
    simp [agentCost, habs1]
  have hn : ¬ (1 : WithTop ℝ) < 0 := not_lt.mpr zero_le_one
  have hchoose : chooseVertex
      (fun j : Fin 2 => if j = 0 then ((0 : ℝ), 0) else ((1 : ℝ), 0))
      (fun _ => (0 : WithTop ℝ)) (fun _ => true) ((0 : ℝ), 0) = some 0 := by
    have hfr : List.finRange 2 = [0, 1] := by decide
    rw [chooseVertex, scanMin, hfr]
    simp only [List.foldl_cons, List.foldl_nil, hc0, hc1]
    simp [WithTop.top_pos, hn]
  have hsq0 : RVO.absSq
      ((fun j : Fin 2 => if j = 0 then ((0 : ℝ), 0) else ((1 : ℝ), 0)) 0 -
        ((0 : ℝ), 0)) = 0 := by
    simp [RVO.absSq]
  refine ⟨(preferredVelocity_degenerate _ _ _ _ _).1 (fun _ => rfl),
    hchoose, hsq0, by decide, ?_⟩
  exact ((preferredVelocity_degenerate _ _ _ _ _).2 0 hchoose hsq0
    (by decide)).1

/-- C7: the steering output before perturbation is either the zero vector or
a unit vector, so its magnitude never exceeds the unit desired speed. -/
theorem preferredVelocity_bounded {n : ℕ} (pos : Fin n → ℝ × ℝ)
    (dtg : Fin n → WithTop ℝ) (vis : Fin n → Bool) (agentPos : ℝ × ℝ)
    (goal : Fin n) :
    (preferredVelocity pos dtg vis agentPos goal = (0, 0) ∨
      RVO.abs (preferredVelocity pos dtg vis agentPos goal) = 1)
    ∧ RVO.abs (preferredVelocity pos dtg vis agentPos goal) ≤ 1 := by
  have hcases : preferredVelocity pos dtg vis agentPos goal = (0, 0) ∨
      RVO.abs (preferredVelocity pos dtg vis agentPos goal) = 1 := by
    rcases ho : chooseVertex pos dtg vis agentPos with _ | v
    · exact Or.inl (preferredVelocity_none goal ho)
    · rw [preferredVelocity_some goal ho]
      by_cases hsq : RVO.absSq (pos v - agentPos) = 0
      · rw [if_pos hsq]
        by_cases hvg : v = goal
        · rw [if_pos hvg]
          exact Or.inl rfl
        · rw [if_neg hvg]
          by_cases hg : pos goal - agentPos = 0
          · rw [hg, RVO.normalize_zero]
            exact Or.inl rfl
          · exact Or.inr (RVO.abs_normalize hg)
      · rw [if_neg hsq]
        have hne : pos v - agentPos ≠ 0 := fun h =>
          hsq (by rw [h]; exact RVO.absSq_eq_zero_iff.mpr rfl)
        exact Or.inr (RVO.abs_normalize hne)
  refine ⟨hcases, ?_⟩
  rcases hcases with h | h
  · rw [h]
    have h00 : ((0 : ℝ), (0 : ℝ)) = (0 : ℝ × ℝ) := rfl
    rw [h00, RVO.abs_zero_v]
    norm_num
  · rw [h]

/-- C9: the termination test is true exactly when every agent is within
squared distance 400 (distance 20) of the position of its goal vertex, and is
false as soon as one agent exceeds that tolerance. -/
theorem reachedGoal_iff {m n : ℕ} (agentPos : Fin m → ℝ × ℝ)
    (goals : Fin m → Fin n) (pos : Fin n → ℝ × ℝ) :
    (reachedGoal agentPos goals pos = true ↔
      ∀ i, RVO.absSq (agentPos i - pos (goals i)) ≤ 400)
    ∧ ∀ i, 400 < RVO.absSq (agentPos i - pos (goals i)) →
        reachedGoal agentPos goals pos = false := by
  have hiff : reachedGoal agentPos goals pos = true ↔
      ∀ i, RVO.absSq (agentPos i - pos (goals i)) ≤ 400 := by
    rw [reachedGoal, List.all_eq_true]
    constructor
    · intro h i
      have hi := h i (List.mem_finRange i)
      simp only [Bool.not_eq_true', decide_eq_false_iff_not, not_lt] at hi
      exact hi
    · intro h i _
      simp only [Bool.not_eq_true', decide_eq_false_iff_not, not_lt]
      exact h i
  refine ⟨hiff, ?_⟩
  intro i hi
  rcases Bool.eq_false_or_eq_true (reachedGoal agentPos goals pos) with ht | hf
  · exact absurd (hiff.mp ht i) (not_le.mpr hi)
  · exact hf

/-- Witness for C2 corrected, at a two-vertex scenario with finite costs:
vertex 0 is selected, is visible, and minimizes the cost among visible
vertices, and the existence part produces a selected vertex. -/
theorem chooseVertex_min_visible_witness :
    ((fun _ : Fin 2 => true) (0 : Fin 2) = true
      ∧ ∀ u, (fun _ : Fin 2 => true) u = true →
        agentCost (fun _ : Fin 2 => ((0 : ℝ), 0)) (fun _ => (0 : WithTop ℝ))
          ((0 : ℝ), 0) 0 ≤
        agentCost (fun _ : Fin 2 => ((0 : ℝ), 0)) (fun _ => (0 : WithTop ℝ))
          ((0 : ℝ), 0) u)
    ∧ ∃ v, chooseVertex (fun _ : Fin 2 => ((0 : ℝ), 0))
        (fun _ => (0 : WithTop ℝ)) (fun _ => true) ((0 : ℝ), 0) = some v := by
  have hcost : ∀ j : Fin 2, agentCost (fun _ : Fin 2 => ((0 : ℝ), 0))
      (fun _ => (0 : WithTop ℝ)) ((0 : ℝ), 0) j = 0 := by
    intro j
    simp [agentCost, RVO.abs_zero_v]
  have hchoose : chooseVertex (fun _ : Fin 2 => ((0 : ℝ), 0))
      (fun _ => (0 : WithTop ℝ)) (fun _ => true) ((0 : ℝ), 0) = some 0 := by
    have hfr : List.finRange 2 = [0, 1] := by decide
    rw [chooseVertex, scanMin, hfr]
    simp only [List.foldl_cons, List.foldl_nil, hcost]
    simp [WithTop.top_pos]
  exact ⟨(chooseVertex_min_visible _ _ _ _).1 0 hchoose,
    (chooseVertex_min_visible _ _ _ _).2
      ⟨0, rfl, by rw [hcost 0]; exact WithTop.top_pos⟩⟩

end Roadmap
